import Mathlib

/-!
Verification of the resumable, quota-aware comment-scraping subsystem of
`Genre_specifc_analyis/scrape_comments` (files `main.py` and
`collect_video_metadata.py`).

The development shallowly embeds, in order:

* the rate-limit classifier `_is_rate_limit_error` of `main.py` and its
  sibling in `collect_video_metadata.py` (a structured model of the
  `HttpError` payloads they inspect);
* the pagination loop of `scrape_video_comments` (the UnitScraper), over an
  abstract row type and an explicit finite source of page-fetch results;
* the checkpoint record and its updates (`per_genre_last_index` assignment,
  `completed_genres` as a sorted deduplicated list, as `main.py` maintains
  them);
* the orchestrator `run_scrape`, producing an explicit event trace
  (unit attempts, state saves, genre completions) plus the final state.

Theorems named `c1_...` through `c10_...` settle the corresponding claims.
-/

/-! ## Rate-limit classifier: data model

`_is_rate_limit_error` receives a `googleapiclient.errors.HttpError`.  The
fields it inspects are `e.resp.status` (the HTTP status of the response) and
`e.content`, which it decodes as UTF-8 and parses as JSON, reading
`payload["error"]["errors"][i]["reason"]`, `payload["error"]["code"]` and
`payload["error"]["status"]`.  We model exactly that shape.  `payload = none`
models every malformed case: content that is not UTF-8, not valid JSON, or
not shaped like the expected object — in the Python these all raise inside
the `try` block and are swallowed by `except Exception: return False`. -/

/-- The HTTP response attached to an `HttpError` (`e.resp`); only its
`status` is ever read. -/
structure HttpResp where
  status : Int
deriving DecidableEq

/-- One entry of `payload["error"]["errors"]`; only `d.get("reason")` is
read, which may be absent (`none`). -/
structure ErrItem where
  reason : Option String
deriving DecidableEq

/-- The `payload["error"]` object: the `errors` list, the numeric `code`,
and the `status` string, each possibly absent (`.get` with default). -/
structure ErrObj where
  errors : List ErrItem
  code : Option Int
  status : Option String
deriving DecidableEq

/-- A `googleapiclient.errors.HttpError` as seen by the classifiers:
`resp` may be absent (`getattr(e, "resp", None)`), and `payload` is the
parse of `e.content` (`none` when decoding/parsing/shape-access raises). -/
structure HttpError where
  resp : Option HttpResp
  payload : Option ErrObj
deriving DecidableEq

/-- Python's `str.lower()` on the ASCII strings the classifiers compare
(character-wise lower-casing of the string's characters). -/
def pyLower (s : String) : String :=
  ⟨s.data.map Char.toLower⟩

/-- The five known YouTube quota/rate reason terms — `quotaExceeded`,
`rateLimitExceeded`, `userRateLimitExceeded`, `dailyLimitExceeded`,
`usageLimitsExceeded` — lower-cased, exactly the literal set in both
source files. -/
def knownRateReasons : List String :=
  ["quotaexceeded", "ratelimitexceeded", "userratelimitexceeded",
   "dailylimitexceeded", "usagelimitsexceeded"]

/-- The function `_is_rate_limit_error` of `main.py` (lines 39–62).  Note that the
initial `if getattr(e, "resp", None) and e.resp.status in (403, 429): pass`
has no effect (its body is `pass`), so the function proceeds to parse the
payload regardless of the HTTP status.  A reason match in
`err["errors"]` returns `True`; otherwise `err["code"] in (403, 429)`
together with a lower-cased `err["status"]` of `resource_exhausted` or
`permission_denied` returns `True`; everything else — including any parse
failure — returns `False`. -/
def _is_rate_limit_error (e : HttpError) : Bool :=
  match e.payload with
  | none => false
  | some err =>
    if err.errors.any (fun d => decide (pyLower (d.reason.getD "") ∈ knownRateReasons)) then
      true
    else if (decide (err.code = some 403) || decide (err.code = some 429)) &&
        decide (pyLower (err.status.getD "") ∈ ["resource_exhausted", "permission_denied"]) then
      true
    else
      false

/-- The function `_is_rate_limit_error` of `collect_video_metadata.py`
(lines 22–37).
Here the payload is parsed, and the reason list scanned, only when
`e.resp` is present with HTTP status 403 or 429; there is no
code/status fallback. -/
def _is_rate_limit_error_meta (e : HttpError) : Bool :=
  match e.resp with
  | none => false
  | some r =>
    if decide (r.status = 403) || decide (r.status = 429) then
      match e.payload with
      | none => false
      | some err =>
        err.errors.any (fun d => decide (pyLower (d.reason.getD "") ∈ knownRateReasons))
    else
      false

/-- The classification claimed by the spec for `RateLimited`, written from
the claim's words: the failure carries a parsed payload whose reason
(lower-cased) is one of the known quota/rate terms, or whose error code is
403/429 together with a `resource_exhausted`/`permission_denied` status
classification. -/
def RateLimitedSpec (e : HttpError) : Prop :=
  ∃ err, e.payload = some err ∧
    ((∃ d ∈ err.errors, pyLower (d.reason.getD "") ∈ knownRateReasons) ∨
      ((err.code = some 403 ∨ err.code = some 429) ∧
        pyLower (err.status.getD "") ∈ ["resource_exhausted", "permission_denied"]))

/-- A failure whose reason field matches a rate term but whose `resp` is
absent: `main.py` classifies it rate-limited, the metadata collector does
not. -/
def exHaltNoResp : HttpError :=
  { resp := none
    payload := some { errors := [{ reason := some "quotaExceeded" }], code := none, status := none } }

/-- A failure with HTTP status 403 and a matching reason: both classifiers
report a rate limit. -/
def exHalt403 : HttpError :=
  { resp := some { status := 403 }
    payload := some { errors := [{ reason := some "quotaExceeded" }], code := none, status := none } }

/-- A malformed failure: no response object, content unparseable. -/
def exMalformed : HttpError :=
  { resp := none, payload := none }

/-! ## UnitScraper: the pagination loop of `scrape_video_comments`

`scrape_video_comments` (lines 81–168 of `main.py`) builds the initial API
request and then loops: `while request and total < max_total_comments`, it
executes the pending request, appends each returned item (flattened into a
row) while `total < max_total_comments`, and — when capacity remains —
advances `request = list_next(request, response)`, which is `None` once no
continuation token remains.  An `HttpError` during `execute()` ends the
loop: the run-halting flag is `_is_rate_limit_error(e)`; any other
exception ends the loop with the flag `False`.

We model the remote source as the finite list of results that successive
pending requests would yield: the head is what executing the current
request returns, and a continuation token remains after a successful page
exactly when the remainder of the list is nonempty.  Row flattening (the
twelve comment fields) is out of scope per the spec, so rows are an
abstract type `α`. -/

/-- Result of executing one pending page request: a page of (flattened)
rows, an `HttpError`, or any other exception. -/
inductive FetchResult (α : Type) where
  | ok (items : List α)
  | httpErr (e : HttpError)
  | otherErr
deriving DecidableEq

/-- Whether a fetch result is a successful page. -/
def FetchResult.isOk {α : Type} : FetchResult α → Bool
  | .ok _ => true
  | _ => false

/-- How the pagination loop ended: the two normal exits of the `while`
condition (`total >= max_total_comments`, respectively `request` becoming
`None`), or one of the two `except` breaks. -/
inductive ExitKind where
  | capReached
  | exhausted
  | httpFailure
  | otherFailure
deriving DecidableEq

/-- Result of `scrape_video_comments`: the collected rows (the returned
DataFrame), the rate-limited flag (second component of the Python return
value), the way the loop ended, and how many page requests were executed
(`request.execute()` calls issued). -/
structure ScrapeOut (α : Type) where
  rows : List α
  rateLimited : Bool
  exitKind : ExitKind
  fetches : Nat
deriving DecidableEq

/-- Bookkeeping for one executed page request around a recursive call. -/
def addFetch {α : Type} (o : ScrapeOut α) : ScrapeOut α :=
  { o with fetches := o.fetches + 1 }

/-- The `while request and total < max_total_comments` loop of
`scrape_video_comments`, with `rows` the accumulator (`total` is its
length).  Per page, the inner `for` appends items only while
`total < max_total_comments`, i.e. it appends
`items.take (cap - rows.length)`; afterwards, if capacity remains, the
request advances (`list_next`), which yields a next request exactly when
the source has more results.  The `[]` source in the first branch cannot
arise from a real pending request (executing always yields a result); it
is treated as an immediately exhausted source. -/
def scrapeGo {α : Type} (cap : Nat) : List (FetchResult α) → List α → ScrapeOut α
  | [], rows =>
    if cap ≤ rows.length then ⟨rows, false, .capReached, 0⟩
    else ⟨rows, false, .exhausted, 0⟩
  | f :: rest, rows =>
    if cap ≤ rows.length then ⟨rows, false, .capReached, 0⟩
    else
      match f with
      | .ok items =>
        if cap ≤ (rows ++ items.take (cap - rows.length)).length then
          ⟨rows ++ items.take (cap - rows.length), false, .capReached, 1⟩
        else
          match rest with
          | [] => ⟨rows ++ items.take (cap - rows.length), false, .exhausted, 1⟩
          | _ :: _ => addFetch (scrapeGo cap rest (rows ++ items.take (cap - rows.length)))
      | .httpErr e => ⟨rows, _is_rate_limit_error e, .httpFailure, 1⟩
      | .otherErr => ⟨rows, false, .otherFailure, 1⟩

/-- The function `scrape_video_comments` (lines 81–168): run the pagination loop with an
empty accumulator against the source of page results for this video.  The
`api_key`/`video_id`/`genre`/`print_first` parameters only shape the query
and the row contents, which the abstract source already incorporates. -/
def scrape_video_comments {α : Type} (src : List (FetchResult α)) (cap : Nat) : ScrapeOut α :=
  scrapeGo cap src []

/-- A concrete three-page source of 40 rows each, used to witness C5:
spec scenario C (cap 100, pages of 40). -/
def srcThreePages : List (FetchResult Nat) :=
  [FetchResult.ok (List.replicate 40 0), FetchResult.ok (List.replicate 40 0),
    FetchResult.ok (List.replicate 40 0)]

/-! ## Checkpoint: the resume state of `main.py`

The state dict (`load_state`, lines 29–37) has three keys:
`completed_genres` (a JSON list of genre names, maintained by lines 282–283
as `sorted(set(...))`), `per_genre_last_index` (a JSON object mapping genre
name to the index of the last video whose processing was attempted), and
`last_video` (the most recently attempted video id, or null).  The
`per_genre_last_index` values written by the program are the loop indices,
which are naturals, so the mapping is modelled as an association list over
`Nat`. -/

/-- The resume state (`state` dict of `main.py`). -/
structure Checkpoint where
  completed_genres : List String
  per_genre_last_index : List (String × Nat)
  last_video : Option String
deriving DecidableEq

/-- Python `dict.get(k)` on an association list (first binding wins, as a
dict has at most one binding per key). -/
def dictGet : List (String × Nat) → String → Option Nat
  | [], _ => none
  | p :: rest, k => if p.1 = k then some p.2 else dictGet rest k

/-- Python `d[k] = v`: overwrite the binding for `k`, or append one. -/
def dictSet : List (String × Nat) → String → Nat → List (String × Nat)
  | [], k, v => [(k, v)]
  | p :: rest, k, v => if p.1 = k then (k, v) :: rest else p :: dictSet rest k v

/-- The resume index `state.get("per_genre_last_index", dict()).get(genre, -1) + 1`
(lines 221 and 233): the index a resumed run starts this genre from. -/
def nextIndex (st : Checkpoint) (g : String) : Nat :=
  match dictGet st.per_genre_last_index g with
  | some n => n + 1
  | none => 0

/-- Lines 259–260: after every unit attempt, `state["last_video"]` is set to
the video id and `state["per_genre_last_index"][genre]` is assigned the
current index (a plain assignment, not a max). -/
def markAttempted (g : String) (idx : Nat) (vid : String) (st : Checkpoint) : Checkpoint :=
  { st with
    last_video := some vid
    per_genre_last_index := dictSet st.per_genre_last_index g idx }

/-- Python `sorted(set(l))` on a list of strings: deduplicate, then sort
lexicographically. -/
def pySortedSet (l : List String) : List String :=
  l.dedup.insertionSort (· ≤ ·)

/-- Lines 282–283: `state.setdefault("completed_genres", []).append(genre)`
followed by `state["completed_genres"] = sorted(set(state["completed_genres"]))`. -/
def markGroupComplete (g : String) (st : Checkpoint) : Checkpoint :=
  { st with completed_genres := pySortedSet (st.completed_genres ++ [g]) }

/-- A checkpoint that already records index 5 for genre `"g"`. -/
def stRecorded5 : Checkpoint :=
  { completed_genres := [], per_genre_last_index := [("g", 5)], last_video := none }

/-! ## RunOrchestrator: `run_scrape` (lines 197–292)

`run_scrape` filters the assignment table against the skip set (the union
of `already_scraped_genres` and `state["completed_genres"]`), returns early
when no candidates or no remaining videos exist among the first
`GENRES_PER_RUN` candidates, and then iterates candidate genres in
assignment order.  Per genre it resumes from
`per_genre_last_index.get(genre, -1) + 1` and iterates the remaining
videos; per video it runs `scrape_video_comments`, updates
`last_video`/`per_genre_last_index`, saves the state, and returns at once
when the scrape reported a rate limit.  After a genre's videos are
exhausted the genre is appended to `completed_genres` (sorted set) and the
state saved again; the run stops early once `GENRES_PER_RUN` genres have
been completed in this invocation.

The run is modelled as the trace of its observable checkpoint-relevant
events plus the final state.  Writing the per-video CSV and appending to
the aggregate output (lines 249–256) are external row-persistence effects
with no influence on checkpoint state or control flow, and are not part of
the trace.  The scrape outcome of each video is given by `src`, the page
sources per video id. -/

/-- Observable events of one `run_scrape` invocation: a unit attempt
(`scrape_video_comments` invoked for `vid` at position `idx` of `genre`'s
video list), a `save_state` call persisting the given checkpoint, and a
genre being marked complete. -/
inductive Event where
  | processUnit (genre : String) (idx : Nat) (vid : String)
  | saveState (st : Checkpoint)
  | completeGenre (genre : String)
deriving DecidableEq

/-- The inner loop `for idx in range(start_index, len(video_list))`
(lines 237–280), over the remaining videos of one genre: scrape, mark
attempted (lines 258–261), save, and return at once on a rate-limit halt
(lines 264–266).  Returns the emitted events, the updated state, and
whether the run was halted by a rate limit. -/
def innerGo {α : Type} (cap : Nat) (src : String → List (FetchResult α)) (g : String) :
    List String → Nat → Checkpoint → List Event × Checkpoint × Bool
  | [], _, st => ([], st, false)
  | vid :: rest, idx, st =>
    if (scrape_video_comments (src vid) cap).rateLimited then
      ([.processUnit g idx vid, .saveState (markAttempted g idx vid st)],
        markAttempted g idx vid st, true)
    else
      (.processUnit g idx vid :: .saveState (markAttempted g idx vid st) ::
          (innerGo cap src g rest (idx + 1) (markAttempted g idx vid st)).1,
        (innerGo cap src g rest (idx + 1) (markAttempted g idx vid st)).2)

/-- One genre's unit loop: the video list is
`[vid for (vid, _score) in assignments[genre]]` (line 232) and the resume
index is `state.get("per_genre_last_index", {}).get(genre, -1) + 1`
(line 233); iterating `range(start_index, len(video_list))` visits exactly
the videos `video_list.drop start_index`, paired with their indices. -/
def genreStep {α : Type} (cap : Nat) (src : String → List (FetchResult α)) (g : String)
    (vids : List (String × Int)) (st : Checkpoint) : List Event × Checkpoint × Bool :=
  innerGo cap src g ((vids.map Prod.fst).drop (nextIndex st g)) (nextIndex st g) st

/-- The genre loop (lines 231–290): per candidate genre run the unit loop;
on a rate-limit halt return immediately; otherwise mark the genre complete,
save, and stop once `processed_genres_this_run >= GENRES_PER_RUN`
(`gpr ≤ processed + 1` after the increment). -/
def outerGo {α : Type} (cap gpr : Nat) (src : String → List (FetchResult α)) :
    List (String × List (String × Int)) → Checkpoint → Nat → List Event × Checkpoint
  | [], st, _ => ([], st)
  | (g, vids) :: rest, st, processed =>
    if (genreStep cap src g vids st).2.2 then
      ((genreStep cap src g vids st).1, (genreStep cap src g vids st).2.1)
    else
      if gpr ≤ processed + 1 then
        ((genreStep cap src g vids st).1 ++
            [.completeGenre g, .saveState (markGroupComplete g (genreStep cap src g vids st).2.1)],
          markGroupComplete g (genreStep cap src g vids st).2.1)
      else
        ((genreStep cap src g vids st).1 ++
            [.completeGenre g, .saveState (markGroupComplete g (genreStep cap src g vids st).2.1)] ++
            (outerGo cap gpr src rest (markGroupComplete g (genreStep cap src g vids st).2.1)
              (processed + 1)).1,
          (outerGo cap gpr src rest (markGroupComplete g (genreStep cap src g vids st).2.1)
            (processed + 1)).2)

/-- Lines 208–209: the candidate genres — assignment order, excluding the
union of `already_scraped_genres` and `state["completed_genres"]`. -/
def candidatesOf (assignments : List (String × List (String × Int)))
    (already_scraped_genres : List String) (st₀ : Checkpoint) :
    List (String × List (String × Int)) :=
  assignments.filter (fun p =>
    !(already_scraped_genres.contains p.1 || st₀.completed_genres.contains p.1))

/-- The orchestrator `run_scrape` (lines 197–292).  Parameters: the per-video page sources,
the assignment table (`genre -> [(video_id, score), ...]` in insertion
order), `already_scraped_genres`, the loaded state, the per-video cap
`max_comments_per_video`, and `GENRES_PER_RUN`.  Lines 211–213 and 218–227
return early when there are no candidates or when the first
`GENRES_PER_RUN` candidates have no remaining videos. -/
def run_scrape {α : Type} (src : String → List (FetchResult α))
    (assignments : List (String × List (String × Int)))
    (already_scraped_genres : List String) (st₀ : Checkpoint)
    (cap gpr : Nat) : List Event × Checkpoint :=
  if (candidatesOf assignments already_scraped_genres st₀).isEmpty then
    ([], st₀)
  else
    if (((candidatesOf assignments already_scraped_genres st₀).take gpr).map
          (fun p => p.2.length - nextIndex st₀ p.1)).sum = 0 then
      ([], st₀)
    else
      outerGo cap gpr src (candidatesOf assignments already_scraped_genres st₀) st₀ 0

/-- Checks that in a trace, every unit attempt is immediately followed by a
`save_state` whose checkpoint records that attempt (its
`per_genre_last_index[genre]` is the attempted index and its `last_video`
the attempted unit): the checkpoint is persisted after every single unit
attempt, never batched. -/
def savedAfterEachAttempt : List Event → Bool
  | [] => true
  | .processUnit g idx vid :: .saveState st :: rest =>
    decide (dictGet st.per_genre_last_index g = some idx) &&
      decide (st.last_video = some vid) && savedAfterEachAttempt rest
  | .processUnit _ _ _ :: _ => false
  | _ :: rest => savedAfterEachAttempt rest

/-- The index of the first unit attempt for genre `g` in a trace, if any. -/
def firstAttemptIdx (tr : List Event) (g : String) : Option Nat :=
  tr.findSome? fun ev =>
    match ev with
    | .processUnit g' i _ => if g' = g then some i else none
    | _ => none

/-- C1 witness scenario: genre `rock` has three videos with index 0 already
recorded (so a resumed run starts at index 1); genre `done` is completed. -/
def stW1 : Checkpoint :=
  { completed_genres := ["done"], per_genre_last_index := [("rock", 0)], last_video := none }

/-- C1 witness assignments. -/
def asgW1 : List (String × List (String × Int)) :=
  [("rock", [("v1", 0), ("v2", 0), ("v3", 0)]), ("done", [("v9", 0)])]

/-- A page source delivering one two-row page for every video. -/
def srcOkW : String → List (FetchResult Nat) := fun _ => [FetchResult.ok [1, 2]]

/-- An empty checkpoint (first run). -/
def stEmpty : Checkpoint :=
  { completed_genres := [], per_genre_last_index := [], last_video := none }

/-- C2 witness assignments. -/
def asgW2 : List (String × List (String × Int)) := [("rock", [("v1", 0)])]

/-- A page source whose first fetch fails with a quota error for every
video. -/
def srcHaltW : String → List (FetchResult Nat) := fun _ => [FetchResult.httpErr exHalt403]

/-- A non-rate-limit failure (HTTP 500, reason `backendError`). -/
def errBackend : HttpError :=
  { resp := some { status := 500 }
    payload := some { errors := [{ reason := some "backendError" }], code := none, status := none } }

/-- C6 witness assignments. -/
def asgW3 : List (String × List (String × Int)) := [("rock", [("v1", 0), ("v2", 0)])]

/-- A page source delivering one row and then a non-rate-limit failure. -/
def srcFailW : String → List (FetchResult Nat) :=
  fun _ => [FetchResult.ok [7], FetchResult.httpErr errBackend]

theorem isRL_some (resp : Option HttpResp) (err : ErrObj) :
    _is_rate_limit_error ⟨resp, some err⟩ =
      (err.errors.any (fun d => decide (pyLower (d.reason.getD "") ∈ knownRateReasons)) ||
        ((decide (err.code = some 403) || decide (err.code = some 429)) &&
          decide (pyLower (err.status.getD "") ∈ ["resource_exhausted", "permission_denied"]))) := by
  unfold _is_rate_limit_error
  cases ha : err.errors.any (fun d => decide (pyLower (d.reason.getD "") ∈ knownRateReasons)) with
  | true =>
    simp only [ha]
    rfl
  | false =>
    cases hb : ((decide (err.code = some 403) || decide (err.code = some 429)) &&
        decide (pyLower (err.status.getD "") ∈ ["resource_exhausted", "permission_denied"])) with
    | true =>
      simp only [ha, hb]
      rfl
    | false =>
      simp only [ha, hb]
      rfl

theorem isRLmeta_some (r : HttpResp) (p : Option ErrObj) :
    _is_rate_limit_error_meta ⟨some r, p⟩ =
      ((decide (r.status = 403) || decide (r.status = 429)) &&
        (match p with
          | none => false
          | some err =>
            err.errors.any (fun d => decide (pyLower (d.reason.getD "") ∈ knownRateReasons)))) := by
  show (if _ then _ else false) = _
  split
  · rename_i h
    simp [h]
  · rename_i h
    simp [h]

/-- C3: `_is_rate_limit_error` of `main.py` returns `true` precisely on the
failures the spec classifies as `RateLimited`: a known quota/rate reason
term (lower-cased), or error code 403/429 with a
resource-exhausted/permission-denied status; every other failure —
including every unparseable one — classifies as non-rate-limit. -/
theorem c3_classifier_iff (e : HttpError) :
    _is_rate_limit_error e = true ↔ RateLimitedSpec e := by
  obtain ⟨resp, payload⟩ := e
  cases payload with
  | none =>
    simp [_is_rate_limit_error, RateLimitedSpec]
  | some err =>
    rw [isRL_some]
    simp only [RateLimitedSpec, Option.some.injEq, Bool.or_eq_true, Bool.and_eq_true,
      List.any_eq_true, decide_eq_true_eq]
    constructor
    · intro h
      refine ⟨err, rfl, ?_⟩
      tauto
    · rintro ⟨err', heq, h⟩
      subst heq
      tauto

/-- C3 witness: the iff evaluated at a concrete rate-limited failure. -/
theorem c3_classifier_iff_witness :
    _is_rate_limit_error exHaltNoResp = true ↔ RateLimitedSpec exHaltNoResp :=
  c3_classifier_iff exHaltNoResp

/-- C9 counterexample: a failure carrying the reason `quotaExceeded` but no
response object is classified rate-limited by `main.py` and non-rate-limit
by `collect_video_metadata.py`, so the two classifiers do not agree on
every input. -/
theorem c9_counterexample :
    _is_rate_limit_error exHaltNoResp = true ∧
      _is_rate_limit_error_meta exHaltNoResp = false := by
  constructor
  · decide
  · decide

/-- C9 (amended): the two classifiers do not coincide, but the metadata
collector's refines the comment scraper's — whenever
`collect_video_metadata.py` reports a rate limit, `main.py` does too. -/
theorem c9_meta_implies_main (e : HttpError) :
    _is_rate_limit_error_meta e = true → _is_rate_limit_error e = true := by
  obtain ⟨resp, payload⟩ := e
  cases resp with
  | none =>
    intro h
    exact absurd h (by simp [_is_rate_limit_error_meta])
  | some r =>
    rw [isRLmeta_some]
    cases payload with
    | none =>
      simp
    | some err =>
      intro h
      rw [isRL_some]
      simp only [Bool.and_eq_true] at h
      simp [h.2]

/-- C9 witness: a 403 failure with reason `quotaExceeded` is rate-limited
for the metadata collector, hence also (via the theorem) for the comment
scraper. -/
theorem c9_meta_implies_main_witness :
    _is_rate_limit_error_meta exHalt403 = true ∧ _is_rate_limit_error exHalt403 = true :=
  ⟨by decide, c9_meta_implies_main exHalt403 (by decide)⟩

/-- C10: the classifier is total — on every input it returns one of the two
booleans — and on every malformed input (content not UTF-8, not JSON, or
not of the expected shape, all modelled by `payload = none`) it returns
`false`. -/
theorem c10_classifier_total (e : HttpError) :
    (_is_rate_limit_error e = true ∨ _is_rate_limit_error e = false) ∧
      (e.payload = none → _is_rate_limit_error e = false) := by
  constructor
  · cases h : _is_rate_limit_error e
    · exact Or.inr rfl
    · exact Or.inl rfl
  · intro h
    unfold _is_rate_limit_error
    rw [h]

/-- C10 witness: the malformed failure classifies as non-rate-limit. -/
theorem c10_classifier_total_witness :
    (exMalformed.payload = none) ∧ _is_rate_limit_error exMalformed = false :=
  ⟨rfl, (c10_classifier_total exMalformed).2 rfl⟩

theorem length_append_take_le {α : Type} (rows items : List α) (cap : Nat)
    (h : rows.length < cap) :
    (rows ++ items.take (cap - rows.length)).length ≤ cap := by
  simp only [List.length_append, List.length_take]
  omega

theorem scrapeGo_rows_le {α : Type} (cap : Nat) (src : List (FetchResult α)) :
    ∀ rows : List α, rows.length ≤ cap → (scrapeGo cap src rows).rows.length ≤ cap := by
  induction src with
  | nil =>
    intro rows h
    simp only [scrapeGo]
    split <;> simpa
  | cons f rest ih =>
    intro rows h
    cases f with
    | ok items =>
      simp only [scrapeGo]
      split
      · simpa
      · rename_i hlt
        split
        · simpa using length_append_take_le rows items cap (by omega)
        · split
          · simpa using length_append_take_le rows items cap (by omega)
          · simpa [addFetch] using ih _ (length_append_take_le rows items cap (by omega))
    | httpErr e =>
      simp only [scrapeGo]
      split <;> simpa
    | otherErr =>
      simp only [scrapeGo]
      split <;> simpa

theorem scrapeGo_error_rows_lt {α : Type} (cap : Nat) (src : List (FetchResult α)) :
    ∀ rows : List α,
      ((scrapeGo cap src rows).exitKind = .httpFailure ∨
        (scrapeGo cap src rows).exitKind = .otherFailure) →
      (scrapeGo cap src rows).rows.length < cap := by
  induction src with
  | nil =>
    intro rows
    simp only [scrapeGo]
    split <;> simp_all
  | cons f rest ih =>
    intro rows
    cases f with
    | ok items =>
      simp only [scrapeGo]
      split
      · simp
      · split
        · simp
        · split
          · simp
          · simpa [addFetch] using ih _
    | httpErr e =>
      simp only [scrapeGo]
      split
      · simp
      · rename_i hg
        intro _
        simpa using by omega
    | otherErr =>
      simp only [scrapeGo]
      split
      · simp
      · rename_i hg
        intro _
        simpa using by omega

theorem scrapeGo_capReached_rows_eq {α : Type} (cap : Nat) (src : List (FetchResult α)) :
    ∀ rows : List α, rows.length ≤ cap →
      (scrapeGo cap src rows).exitKind = .capReached →
      (scrapeGo cap src rows).rows.length = cap := by
  induction src with
  | nil =>
    intro rows hle
    simp only [scrapeGo]
    split
    · intro _
      simpa using by omega
    · simp
  | cons f rest ih =>
    intro rows hle
    cases f with
    | ok items =>
      simp only [scrapeGo]
      split
      · intro _
        simpa using by omega
      · rename_i hg
        split
        · rename_i hg2
          intro _
          exact le_antisymm (length_append_take_le rows items cap (by omega)) hg2
        · split
          · simp
          · simpa [addFetch] using ih _ (length_append_take_le rows items cap (by omega))
    | httpErr e =>
      simp only [scrapeGo]
      split
      · intro _
        simpa using by omega
      · simp
    | otherErr =>
      simp only [scrapeGo]
      split
      · intro _
        simpa using by omega
      · simp

theorem scrapeGo_exhausted_drained {α : Type} (cap : Nat) (src : List (FetchResult α)) :
    ∀ rows : List α,
      (scrapeGo cap src rows).exitKind = .exhausted →
      (scrapeGo cap src rows).fetches = src.length ∧ src.all FetchResult.isOk = true := by
  induction src with
  | nil =>
    intro rows
    simp only [scrapeGo]
    split <;> simp
  | cons f rest ih =>
    intro rows
    cases f with
    | ok items =>
      simp only [scrapeGo]
      split
      · simp
      · split
        · simp
        · split
          · simp [FetchResult.isOk]
          · intro h
            have := ih _ (by simpa [addFetch] using h)
            simp_all [addFetch, FetchResult.isOk]
    | httpErr e =>
      simp only [scrapeGo]
      split <;> simp
    | otherErr =>
      simp only [scrapeGo]
      split <;> simp

theorem scrapeGo_allOk_normal {α : Type} (cap : Nat) (src : List (FetchResult α)) :
    ∀ rows : List α, src.all FetchResult.isOk = true →
      (scrapeGo cap src rows).exitKind = .capReached ∨
        (scrapeGo cap src rows).exitKind = .exhausted := by
  induction src with
  | nil =>
    intro rows _
    simp only [scrapeGo]
    split <;> simp
  | cons f rest ih =>
    intro rows hok
    cases f with
    | ok items =>
      simp only [List.all_cons, Bool.and_eq_true] at hok
      simp only [scrapeGo]
      split
      · simp
      · split
        · simp
        · split
          · simp
          · simpa [addFetch] using ih _ hok.2
    | httpErr e =>
      simp [FetchResult.isOk] at hok
    | otherErr =>
      simp [FetchResult.isOk] at hok

/-- C5: the UnitScraper never returns more than `cap` rows, for any cap and
any sequence of page results; and the pagination loop terminates normally —
through the `while` condition rather than an exception — exactly when the
row count has reached `cap` or no continuation token remains (every pending
request was executed, all successfully, draining the source). -/
theorem c5_cap_and_normal_termination {α : Type} (src : List (FetchResult α)) (cap : Nat) :
    (scrape_video_comments src cap).rows.length ≤ cap ∧
      ((scrape_video_comments src cap).exitKind = .capReached ∨
          (scrape_video_comments src cap).exitKind = .exhausted ↔
        (scrape_video_comments src cap).rows.length = cap ∨
          ((scrape_video_comments src cap).fetches = src.length ∧
            src.all FetchResult.isOk = true)) := by
  unfold scrape_video_comments
  refine ⟨scrapeGo_rows_le cap src [] (by simp), ?_, ?_⟩
  · intro h
    rcases h with h | h
    · exact Or.inl (scrapeGo_capReached_rows_eq cap src [] (by simp) h)
    · exact Or.inr (scrapeGo_exhausted_drained cap src [] h)
  · intro h
    rcases h with h | h
    · by_contra hk
      push_neg at hk
      have herr : (scrapeGo cap src []).exitKind = .httpFailure ∨
          (scrapeGo cap src []).exitKind = .otherFailure := by
        cases hkind : (scrapeGo cap src []).exitKind <;> simp_all
      have := scrapeGo_error_rows_lt cap src [] herr
      omega
    · exact scrapeGo_allOk_normal cap src [] h.2

/-- C5 witness: the statement evaluated at the concrete three-page source
and cap 100. -/
theorem c5_cap_and_normal_termination_witness :
    (scrape_video_comments srcThreePages 100).rows.length ≤ 100 ∧
      ((scrape_video_comments srcThreePages 100).exitKind = .capReached ∨
          (scrape_video_comments srcThreePages 100).exitKind = .exhausted ↔
        (scrape_video_comments srcThreePages 100).rows.length = 100 ∨
          ((scrape_video_comments srcThreePages 100).fetches = srcThreePages.length ∧
            srcThreePages.all FetchResult.isOk = true)) :=
  c5_cap_and_normal_termination srcThreePages 100

/-- C8: with a cap of 0 the scraper returns an empty row sequence and no
rate-limit halt, and zero page requests are executed against the source —
the `while` condition `total < max_total_comments` fails immediately. -/
theorem c8_cap_zero {α : Type} (src : List (FetchResult α)) :
    scrape_video_comments src 0 = ⟨[], false, .capReached, 0⟩ := by
  cases src <;> rfl

theorem scrapeGo_exhausted_rows_lt {α : Type} (cap : Nat) (src : List (FetchResult α)) :
    ∀ rows : List α,
      (scrapeGo cap src rows).exitKind = .exhausted →
      (scrapeGo cap src rows).rows.length < cap := by
  induction src with
  | nil =>
    intro rows
    simp only [scrapeGo]
    split
    · simp
    · rename_i hg
      intro _
      simpa using by omega
  | cons f rest ih =>
    intro rows
    cases f with
    | ok items =>
      simp only [scrapeGo]
      split
      · simp
      · split
        · simp
        · split
          · intro _
            show (rows ++ List.take (cap - rows.length) items).length < cap
            omega
          · simpa [addFetch] using ih _
    | httpErr e =>
      simp only [scrapeGo]
      split <;> simp
    | otherErr =>
      simp only [scrapeGo]
      split <;> simp

theorem scrapeGo_append_exhausted {α : Type} (cap : Nat) (src₁ : List (FetchResult α)) :
    ∀ (src₂ : List (FetchResult α)) (rows : List α), src₂ ≠ [] →
      (scrapeGo cap src₁ rows).exitKind = .exhausted →
      scrapeGo cap (src₁ ++ src₂) rows =
        ⟨(scrapeGo cap src₂ (scrapeGo cap src₁ rows).rows).rows,
          (scrapeGo cap src₂ (scrapeGo cap src₁ rows).rows).rateLimited,
          (scrapeGo cap src₂ (scrapeGo cap src₁ rows).rows).exitKind,
          (scrapeGo cap src₁ rows).fetches +
            (scrapeGo cap src₂ (scrapeGo cap src₁ rows).rows).fetches⟩ := by
  induction src₁ with
  | nil =>
    intro src₂ rows hne
    simp only [scrapeGo, List.nil_append]
    split
    · simp
    · intro _
      simp
  | cons f rest ih =>
    intro src₂ rows hne
    cases f with
    | ok items =>
      simp only [scrapeGo, List.cons_append]
      split
      · simp
      · split
        · simp
        · cases rest with
          | nil =>
            simp only [List.nil_append]
            intro _
            cases src₂ with
            | nil => exact absurd rfl hne
            | cons g gs =>
              simp [addFetch, Nat.add_comm]
          | cons r rs =>
            dsimp only [List.append_eq, List.cons_append]
            intro h
            have hrec : (scrapeGo cap (r :: rs) (rows ++ items.take (cap - rows.length))).exitKind
                = .exhausted := by
              simpa [addFetch] using h
            have hih := ih src₂ (rows ++ List.take (cap - rows.length) items) hne hrec
            rw [List.cons_append] at hih
            rw [hih]
            simp [addFetch]
            omega
    | httpErr e =>
      simp only [scrapeGo, List.cons_append]
      split <;> simp
    | otherErr =>
      simp only [scrapeGo, List.cons_append]
      split <;> simp

theorem dictGet_dictSet_self (d : List (String × Nat)) (k : String) (v : Nat) :
    dictGet (dictSet d k v) k = some v := by
  induction d with
  | nil => simp [dictGet, dictSet]
  | cons p rest ih =>
    by_cases h : p.1 = k
    · simp [dictGet, dictSet, h]
    · simp [dictGet, dictSet, h, ih]

theorem dictGet_dictSet_ne (d : List (String × Nat)) (k k' : String) (v : Nat)
    (h : k' ≠ k) : dictGet (dictSet d k v) k' = dictGet d k' := by
  induction d with
  | nil =>
    simp only [dictSet, dictGet]
    rw [if_neg (fun hk => h hk.symm)]
  | cons p rest ih =>
    by_cases hp : p.1 = k
    · have hne : ¬p.1 = k' := by
        rw [hp]
        exact fun hk => h hk.symm
      simp only [dictSet, if_pos hp, dictGet]
      rw [if_neg (fun hk => h hk.symm), if_neg hne]
    · simp only [dictSet, if_neg hp, dictGet]
      split
      · rfl
      · exact ih

theorem pySortedSet_nodup (l : List String) : (pySortedSet l).Nodup :=
  ((List.perm_insertionSort _ l.dedup).nodup_iff).mpr l.nodup_dedup

theorem pySortedSet_mem (l : List String) (a : String) :
    a ∈ pySortedSet l ↔ a ∈ l := by
  unfold pySortedSet
  rw [(List.perm_insertionSort _ l.dedup).mem_iff]
  exact List.mem_dedup

theorem pySortedSet_sorted (l : List String) :
    (pySortedSet l).Sorted (· ≤ ·) :=
  List.sorted_insertionSort _ l.dedup

theorem pySortedSet_eq_of_same_mem (l l' : List String)
    (h : ∀ a, a ∈ l ↔ a ∈ l') : pySortedSet l = pySortedSet l' := by
  apply List.eq_of_perm_of_sorted _ (pySortedSet_sorted l) (pySortedSet_sorted l')
  rw [List.perm_ext_iff_of_nodup (pySortedSet_nodup l) (pySortedSet_nodup l')]
  intro a
  rw [pySortedSet_mem, pySortedSet_mem]
  exact h a

/-- C7: `markGroupComplete` has set semantics — applying it twice for the
same group yields the same `completedGroups` as applying it once, and the
resulting `completedGroups` list never contains duplicates. -/
theorem c7_markGroupComplete_idempotent (st : Checkpoint) (g : String) :
    (markGroupComplete g (markGroupComplete g st)).completed_genres =
        (markGroupComplete g st).completed_genres ∧
      (markGroupComplete g st).completed_genres.Nodup := by
  constructor
  · show pySortedSet (pySortedSet (st.completed_genres ++ [g]) ++ [g]) = _
    have hg : g ∈ pySortedSet (st.completed_genres ++ [g]) := by
      rw [pySortedSet_mem]
      simp
    have : ∀ a, a ∈ pySortedSet (st.completed_genres ++ [g]) ++ [g] ↔
        a ∈ st.completed_genres ++ [g] := by
      intro a
      simp only [List.mem_append, List.mem_singleton, pySortedSet_mem]
      constructor
      · rintro (h | rfl)
        · exact h
        · exact Or.inr rfl
      · exact Or.inl
    calc pySortedSet (pySortedSet (st.completed_genres ++ [g]) ++ [g])
        = pySortedSet (st.completed_genres ++ [g]) := pySortedSet_eq_of_same_mem _ _ this
      _ = (markGroupComplete g st).completed_genres := rfl
  · exact pySortedSet_nodup _

/-- C4 amended theorem: `markAttempted(group, index, unitId)` overwrites
`perGroupLastIndex[group]` with `index` unconditionally (a plain dict
assignment, not a max with the existing value), sets `lastUnit` to
`unitId`, and leaves `completedGroups` untouched. -/
theorem c4_markAttempted_sets (st : Checkpoint) (g : String) (idx : Nat) (vid : String) :
    dictGet (markAttempted g idx vid st).per_genre_last_index g = some idx ∧
      (markAttempted g idx vid st).last_video = some vid ∧
      (markAttempted g idx vid st).completed_genres = st.completed_genres :=
  ⟨dictGet_dictSet_self _ g idx, rfl, rfl⟩

/-- C4 counterexample: recording index 3 for a group whose recorded last
index is 5 overwrites the value with 3 — the claimed
`max(existing, index) = 5` does not hold, so recording a smaller index
does change `perGroupLastIndex[group]`. -/
theorem c4_counterexample :
    dictGet (markAttempted "g" 3 "v" stRecorded5).per_genre_last_index "g" = some 3 ∧
      some 3 ≠ some (max 5 3) ∧
      dictGet (markAttempted "g" 3 "v" stRecorded5).per_genre_last_index "g" ≠
        dictGet stRecorded5.per_genre_last_index "g" := by
  refine ⟨by decide, by decide, by decide⟩

theorem innerGo_nil {α : Type} (cap : Nat) (src : String → List (FetchResult α)) (g : String)
    (idx : Nat) (st : Checkpoint) :
    innerGo cap src g [] idx st = ([], st, false) := rfl

theorem innerGo_saved {α : Type} (cap : Nat) (src : String → List (FetchResult α)) (g : String)
    (vids : List String) :
    ∀ (idx : Nat) (st : Checkpoint) (t : List Event),
      savedAfterEachAttempt ((innerGo cap src g vids idx st).1 ++ t) =
        savedAfterEachAttempt t := by
  induction vids with
  | nil =>
    intro idx st t
    simp [innerGo]
  | cons vid rest ih =>
    intro idx st t
    simp only [innerGo]
    split
    · simp [savedAfterEachAttempt, markAttempted, dictGet_dictSet_self]
    · simp only [List.cons_append]
      rw [savedAfterEachAttempt]
      simp [markAttempted, dictGet_dictSet_self, ih]

theorem innerGo_events {α : Type} (cap : Nat) (src : String → List (FetchResult α)) (g : String)
    (vids : List String) :
    ∀ (idx : Nat) (st : Checkpoint) (ev : Event), ev ∈ (innerGo cap src g vids idx st).1 →
      (∃ i v, ev = .processUnit g i v ∧ idx ≤ i) ∨ (∃ s, ev = .saveState s) := by
  induction vids with
  | nil =>
    intro idx st ev h
    simp [innerGo] at h
  | cons vid rest ih =>
    intro idx st ev h
    simp only [innerGo] at h
    split at h
    · simp only [List.mem_cons, List.mem_singleton, List.not_mem_nil, or_false] at h
      rcases h with rfl | rfl
      · exact Or.inl ⟨idx, vid, rfl, Nat.le_refl idx⟩
      · exact Or.inr ⟨_, rfl⟩
    · simp only [List.mem_cons] at h
      rcases h with rfl | rfl | h
      · exact Or.inl ⟨idx, vid, rfl, Nat.le_refl idx⟩
      · exact Or.inr ⟨_, rfl⟩
      · rcases ih (idx + 1) _ ev h with ⟨i, v, rfl, hle⟩ | hs
        · exact Or.inl ⟨i, v, rfl, by omega⟩
        · exact Or.inr hs

theorem innerGo_state {α : Type} (cap : Nat) (src : String → List (FetchResult α)) (g : String)
    (vids : List String) :
    ∀ (idx : Nat) (st : Checkpoint),
      ((innerGo cap src g vids idx st).2.1).completed_genres = st.completed_genres ∧
        ∀ k, k ≠ g →
          dictGet ((innerGo cap src g vids idx st).2.1).per_genre_last_index k =
            dictGet st.per_genre_last_index k := by
  induction vids with
  | nil =>
    intro idx st
    simp [innerGo]
  | cons vid rest ih =>
    intro idx st
    simp only [innerGo]
    split
    · refine ⟨rfl, fun k hk => ?_⟩
      exact dictGet_dictSet_ne _ _ _ _ hk
    · refine ⟨?_, fun k hk => ?_⟩
      · rw [(ih (idx + 1) (markAttempted g idx vid st)).1]
        rfl
      · rw [(ih (idx + 1) (markAttempted g idx vid st)).2 k hk]
        exact dictGet_dictSet_ne _ _ _ _ hk

theorem innerGo_cons {α : Type} (cap : Nat) (src : String → List (FetchResult α)) (g : String)
    (vid : String) (rest : List String) (idx : Nat) (st : Checkpoint) :
    ∃ tail, (innerGo cap src g (vid :: rest) idx st).1 = Event.processUnit g idx vid :: tail := by
  simp only [innerGo]
  split
  · exact ⟨_, rfl⟩
  · exact ⟨_, rfl⟩

theorem innerGo_halt {α : Type} (cap : Nat) (src : String → List (FetchResult α)) (g : String)
    (vids : List String) :
    ∀ (idx : Nat) (st : Checkpoint) (i j : Nat) (v : String),
      (innerGo cap src g vids idx st).1.get? i = some (.processUnit g j v) →
      (scrape_video_comments (src v) cap).rateLimited = true →
      (innerGo cap src g vids idx st).2.2 = true ∧
        (innerGo cap src g vids idx st).1.length = i + 2 ∧
        (innerGo cap src g vids idx st).1.get? (i + 1) =
          some (.saveState (innerGo cap src g vids idx st).2.1) ∧
        dictGet ((innerGo cap src g vids idx st).2.1).per_genre_last_index g = some j ∧
        ((innerGo cap src g vids idx st).2.1).last_video = some v := by
  induction vids with
  | nil =>
    intro idx st i j v h _
    simp [innerGo] at h
  | cons vid rest ih =>
    intro idx st i j v h hrl
    by_cases hc : (scrape_video_comments (src vid) cap).rateLimited = true
    · simp only [innerGo, if_pos hc] at h ⊢
      rcases i with _ | _ | i
      · simp only [List.get?_cons_zero, Option.some.injEq, Event.processUnit.injEq] at h
        obtain ⟨-, rfl, rfl⟩ := h
        exact ⟨by trivial, by trivial, by trivial, dictGet_dictSet_self _ _ _, by trivial⟩
      · simp at h
      · simp at h
    · simp only [innerGo, if_neg hc] at h ⊢
      rcases i with _ | _ | i
      · simp only [List.get?_cons_zero, Option.some.injEq, Event.processUnit.injEq] at h
        obtain ⟨-, rfl, rfl⟩ := h
        exact absurd hrl hc
      · simp at h
      · simp only [List.get?_cons_succ] at h
        have := ih (idx + 1) (markAttempted g idx vid st) i j v h hrl
        refine ⟨this.1, ?_, ?_, this.2.2.2⟩
        · simp only [List.length_cons, this.2.1]
        · simpa only [List.get?_cons_succ] using this.2.2.1

theorem innerGo_continue {α : Type} (cap : Nat) (src : String → List (FetchResult α)) (g : String)
    (vids : List String) :
    ∀ (idx : Nat) (st : Checkpoint) (i j : Nat) (v : String),
      (innerGo cap src g vids idx st).1.get? i = some (.processUnit g j v) →
      (scrape_video_comments (src v) cap).rateLimited = false →
      i + 2 ≤ (innerGo cap src g vids idx st).1.length ∧
        ((innerGo cap src g vids idx st).1.length = i + 2 →
          (innerGo cap src g vids idx st).2.2 = false) := by
  induction vids with
  | nil =>
    intro idx st i j v h _
    simp [innerGo] at h
  | cons vid rest ih =>
    intro idx st i j v h hrl
    by_cases hc : (scrape_video_comments (src vid) cap).rateLimited = true
    · simp only [innerGo, if_pos hc] at h ⊢
      rcases i with _ | _ | i
      · simp only [List.get?_cons_zero, Option.some.injEq, Event.processUnit.injEq] at h
        obtain ⟨-, -, rfl⟩ := h
        rw [hc] at hrl
        cases hrl
      · simp at h
      · simp at h
    · simp only [innerGo, if_neg hc] at h ⊢
      rcases i with _ | _ | i
      · cases hrest : (innerGo cap src g rest (idx + 1) (markAttempted g idx vid st)).1 with
        | nil =>
          refine ⟨by simp [hrest], fun _ => ?_⟩
          cases rest with
          | nil => rfl
          | cons vid' rest' =>
            obtain ⟨tail, htail⟩ :=
              innerGo_cons cap src g vid' rest' (idx + 1) (markAttempted g idx vid st)
            rw [htail] at hrest
            cases hrest
        | cons ev tl =>
          refine ⟨by simp [hrest], fun hlen => ?_⟩
          simp [hrest] at hlen
      · simp at h
      · simp only [List.get?_cons_succ] at h
        have := ih (idx + 1) (markAttempted g idx vid st) i j v h hrl
        refine ⟨?_, fun hlen => ?_⟩
        · simp only [List.length_cons]
          omega
        · apply this.2
          simp only [List.length_cons] at hlen
          omega

theorem nextIndex_congr (st st' : Checkpoint) (g : String)
    (h : dictGet st'.per_genre_last_index g = dictGet st.per_genre_last_index g) :
    nextIndex st' g = nextIndex st g := by
  unfold nextIndex
  rw [h]

theorem innerGo_no_other_pu {α : Type} (cap : Nat) (src : String → List (FetchResult α))
    (g' : String) (vids : List String) (idx : Nat) (st : Checkpoint) (g : String)
    (hne : g ≠ g') :
    ∀ i v, Event.processUnit g i v ∉ (innerGo cap src g' vids idx st).1 := by
  intro i v hmem
  rcases innerGo_events cap src g' vids idx st _ hmem with ⟨i', v', heq, -⟩ | ⟨s, heq⟩
  · injection heq with h1 h2 h3
    exact hne h1
  · cases heq

theorem genreStep_preserves {α : Type} (cap : Nat) (src : String → List (FetchResult α))
    (g' : String) (vids : List (String × Int)) (st : Checkpoint) (g : String) (hne : g ≠ g') :
    dictGet (markGroupComplete g' (genreStep cap src g' vids st).2.1).per_genre_last_index g =
      dictGet st.per_genre_last_index g :=
  (innerGo_state cap src g' _ _ st).2 g hne

theorem savedAfter_cg_cons (g : String) (l : List Event) :
    savedAfterEachAttempt (Event.completeGenre g :: l) = savedAfterEachAttempt l := by
  rw [savedAfterEachAttempt]
  all_goals intros
  all_goals simp_all

theorem savedAfter_ss_cons (st : Checkpoint) (l : List Event) :
    savedAfterEachAttempt (Event.saveState st :: l) = savedAfterEachAttempt l := by
  rw [savedAfterEachAttempt]
  all_goals intros
  all_goals simp_all

theorem outerGo_saved {α : Type} (cap gpr : Nat) (src : String → List (FetchResult α))
    (cands : List (String × List (String × Int))) :
    ∀ (st : Checkpoint) (p : Nat) (t : List Event),
      savedAfterEachAttempt ((outerGo cap gpr src cands st p).1 ++ t) =
        savedAfterEachAttempt t := by
  induction cands with
  | nil =>
    intro st p t
    simp [outerGo]
  | cons c rest ih =>
    obtain ⟨g, vids⟩ := c
    intro st p t
    simp only [outerGo]
    split
    · exact innerGo_saved cap src g _ _ st t
    · split
      · rw [List.append_assoc]
        unfold genreStep
        rw [innerGo_saved]
        simp only [List.cons_append, List.nil_append]
        rw [savedAfter_cg_cons, savedAfter_ss_cons]
      · rw [List.append_assoc, List.append_assoc]
        unfold genreStep
        rw [innerGo_saved]
        simp only [List.cons_append, List.nil_append]
        rw [savedAfter_cg_cons, savedAfter_ss_cons]
        exact ih _ _ t

theorem outerGo_pu_genre {α : Type} (cap gpr : Nat) (src : String → List (FetchResult α))
    (cands : List (String × List (String × Int))) :
    ∀ (st : Checkpoint) (p : Nat) (g : String) (i : Nat) (v : String),
      Event.processUnit g i v ∈ (outerGo cap gpr src cands st p).1 →
      g ∈ cands.map Prod.fst := by
  induction cands with
  | nil =>
    intro st p g i v h
    simp [outerGo] at h
  | cons c rest ih =>
    obtain ⟨g', vids⟩ := c
    intro st p g i v h
    by_cases hg : g = g'
    · simp [hg]
    · simp only [outerGo] at h
      have hseg : Event.processUnit g i v ∉ (genreStep cap src g' vids st).1 :=
        innerGo_no_other_pu cap src g' _ _ st g hg i v
      split at h
      · exact absurd h hseg
      · split at h
        · rw [List.mem_append] at h
          rcases h with h | h
          · exact absurd h hseg
          · simp at h
        · rw [List.append_assoc, List.mem_append] at h
          rcases h with h | h
          · exact absurd h hseg
          · simp only [List.cons_append, List.nil_append, List.mem_cons] at h
            rcases h with h | h | h
            · cases h
            · cases h
            · have := ih _ _ g i v h
              simp [this]

theorem firstAttemptIdx_cons_pu (g : String) (i : Nat) (v : String) (l : List Event) :
    firstAttemptIdx (Event.processUnit g i v :: l) g = some i := by
  simp [firstAttemptIdx, List.findSome?_cons]

theorem firstAttemptIdx_append_none (l₁ l₂ : List Event) (g : String)
    (h : ∀ i v, Event.processUnit g i v ∉ l₁) :
    firstAttemptIdx (l₁ ++ l₂) g = firstAttemptIdx l₂ g := by
  induction l₁ with
  | nil => simp
  | cons ev tl ih =>
    have htl : ∀ i v, Event.processUnit g i v ∉ tl := by
      intro i v hm
      exact h i v (List.mem_cons_of_mem _ hm)
    rw [List.cons_append]
    unfold firstAttemptIdx
    rw [List.findSome?_cons]
    cases ev with
    | processUnit g'' i v =>
      have hne : g'' ≠ g := by
        intro hgg
        subst hgg
        exact h i v (List.mem_cons_self _ _)
      simp only [if_neg hne]
      exact ih htl
    | saveState s =>
      exact ih htl
    | completeGenre g'' =>
      exact ih htl

theorem firstAttemptIdx_none_of_no_pu (l : List Event) (g : String)
    (h : ∀ i v, Event.processUnit g i v ∉ l) :
    firstAttemptIdx l g = none := by
  have := firstAttemptIdx_append_none l [] g h
  simpa using this

theorem firstAttemptIdx_cons_cg (g g'' : String) (l : List Event) :
    firstAttemptIdx (Event.completeGenre g'' :: l) g = firstAttemptIdx l g := by
  simp [firstAttemptIdx, List.findSome?_cons]

theorem firstAttemptIdx_cons_ss (g : String) (s : Checkpoint) (l : List Event) :
    firstAttemptIdx (Event.saveState s :: l) g = firstAttemptIdx l g := by
  simp [firstAttemptIdx, List.findSome?_cons]

theorem outerGo_c1 {α : Type} (cap gpr : Nat) (src : String → List (FetchResult α)) (g : String) :
    ∀ (cands : List (String × List (String × Int))) (st : Checkpoint) (p : Nat),
      (cands.map Prod.fst).Nodup →
      (∀ i v, Event.processUnit g i v ∈ (outerGo cap gpr src cands st p).1 →
        nextIndex st g ≤ i) ∧
      (∀ i, firstAttemptIdx (outerGo cap gpr src cands st p).1 g = some i →
        i = nextIndex st g) := by
  intro cands
  induction cands with
  | nil =>
    intro st p _
    constructor
    · intro i v h
      simp [outerGo] at h
    · intro i h
      simp [outerGo, firstAttemptIdx] at h
  | cons c rest ih =>
    obtain ⟨g', vids⟩ := c
    intro st p hnd
    simp only [List.map_cons, List.nodup_cons] at hnd
    obtain ⟨hg'notin, hnd'⟩ := hnd
    have hsegpu : ∀ i v, Event.processUnit g i v ∈ (genreStep cap src g' vids st).1 →
        g = g' ∧ nextIndex st g' ≤ i := by
      intro i v hmem
      rcases innerGo_events cap src g' _ _ st _ hmem with ⟨i', v', heq, hle⟩ | ⟨s, heq⟩
      · injection heq with h1 h2 h3
        subst h1
        subst h2
        exact ⟨rfl, hle⟩
      · cases heq
    have hrecnopu : g' = g →
        ∀ i v st'' p'', Event.processUnit g i v ∉ (outerGo cap gpr src rest st'' p'').1 := by
      intro heq i v st'' p'' hmem
      apply hg'notin
      rw [heq]
      exact outerGo_pu_genre cap gpr src rest st'' p'' g i v hmem
    by_cases hgg : g' = g
    · subst hgg
      constructor
      · intro i v hmem
        simp only [outerGo] at hmem
        split at hmem
        · exact (hsegpu i v hmem).2
        · split at hmem
          · rw [List.mem_append] at hmem
            rcases hmem with hmem | hmem
            · exact (hsegpu i v hmem).2
            · simp at hmem
          · rw [List.append_assoc, List.mem_append] at hmem
            rcases hmem with hmem | hmem
            · exact (hsegpu i v hmem).2
            · simp only [List.cons_append, List.nil_append, List.mem_cons] at hmem
              rcases hmem with hmem | hmem | hmem
              · cases hmem
              · cases hmem
              · exact absurd hmem (hrecnopu rfl i v _ _)
      · intro i hfi
        cases hdrop : (vids.map Prod.fst).drop (nextIndex st g') with
        | nil =>
          have hseg : genreStep cap src g' vids st = ([], st, false) := by
            unfold genreStep
            rw [hdrop]
            rfl
          simp only [outerGo, hseg] at hfi
          simp only [List.nil_append] at hfi
          split at hfi
          · simp [firstAttemptIdx] at hfi
          · split at hfi
            · rw [firstAttemptIdx_cons_cg, firstAttemptIdx_cons_ss] at hfi
              simp [firstAttemptIdx] at hfi
            · rw [List.cons_append, List.cons_append, List.nil_append,
                firstAttemptIdx_cons_cg, firstAttemptIdx_cons_ss] at hfi
              rw [firstAttemptIdx_none_of_no_pu _ g' (fun i v => hrecnopu rfl i v _ _)] at hfi
              cases hfi
        | cons vid tl =>
          obtain ⟨tail, htail⟩ := innerGo_cons cap src g' vid tl (nextIndex st g') st
          have hseg1 : (genreStep cap src g' vids st).1 =
              Event.processUnit g' (nextIndex st g') vid :: tail := by
            unfold genreStep
            rw [hdrop]
            exact htail
          simp only [outerGo] at hfi
          split at hfi
          · rw [hseg1, firstAttemptIdx_cons_pu] at hfi
            injection hfi with hfi
            exact hfi.symm
          · split at hfi
            · rw [hseg1, List.cons_append, firstAttemptIdx_cons_pu] at hfi
              injection hfi with hfi
              exact hfi.symm
            · rw [List.append_assoc, hseg1, List.cons_append, firstAttemptIdx_cons_pu] at hfi
              injection hfi with hfi
              exact hfi.symm
    · have hne : g ≠ g' := fun h => hgg h.symm
      have hsegno : ∀ i v, Event.processUnit g i v ∉ (genreStep cap src g' vids st).1 :=
        innerGo_no_other_pu cap src g' _ _ st g hne
      have hnip : nextIndex (markGroupComplete g' (genreStep cap src g' vids st).2.1) g =
          nextIndex st g :=
        nextIndex_congr st _ g (genreStep_preserves cap src g' vids st g hne)
      constructor
      · intro i v hmem
        simp only [outerGo] at hmem
        split at hmem
        · exact absurd hmem (hsegno i v)
        · split at hmem
          · rw [List.mem_append] at hmem
            rcases hmem with hmem | hmem
            · exact absurd hmem (hsegno i v)
            · simp at hmem
          · rw [List.append_assoc, List.mem_append] at hmem
            rcases hmem with hmem | hmem
            · exact absurd hmem (hsegno i v)
            · simp only [List.cons_append, List.nil_append, List.mem_cons] at hmem
              rcases hmem with hmem | hmem | hmem
              · cases hmem
              · cases hmem
              · have := (ih _ (p + 1) hnd').1 i v hmem
                rwa [hnip] at this
      · intro i hfi
        simp only [outerGo] at hfi
        split at hfi
        · rw [firstAttemptIdx_none_of_no_pu _ g hsegno] at hfi
          cases hfi
        · split at hfi
          · rw [firstAttemptIdx_append_none _ _ g hsegno, firstAttemptIdx_cons_cg,
              firstAttemptIdx_cons_ss] at hfi
            simp [firstAttemptIdx] at hfi
          · rw [List.append_assoc, firstAttemptIdx_append_none _ _ g hsegno,
              List.cons_append, List.cons_append, List.nil_append,
              firstAttemptIdx_cons_cg, firstAttemptIdx_cons_ss] at hfi
            have := (ih _ (p + 1) hnd').2 i hfi
            rwa [hnip] at this

theorem markGroupComplete_completed_mem (g' x : String) (st : Checkpoint) :
    x ∈ (markGroupComplete g' st).completed_genres ↔ x ∈ st.completed_genres ∨ x = g' := by
  show x ∈ pySortedSet (st.completed_genres ++ [g']) ↔ _
  rw [pySortedSet_mem]
  simp

theorem genreStep_completed {α : Type} (cap : Nat) (src : String → List (FetchResult α))
    (g : String) (vids : List (String × Int)) (st : Checkpoint) :
    ((genreStep cap src g vids st).2.1).completed_genres = st.completed_genres :=
  (innerGo_state cap src g _ _ st).1

theorem genreStep_halt {α : Type} (cap : Nat) (src : String → List (FetchResult α))
    (g : String) (vids : List (String × Int)) (st : Checkpoint) (i j : Nat) (v : String) :
    (genreStep cap src g vids st).1.get? i = some (.processUnit g j v) →
    (scrape_video_comments (src v) cap).rateLimited = true →
    (genreStep cap src g vids st).2.2 = true ∧
      (genreStep cap src g vids st).1.length = i + 2 ∧
      (genreStep cap src g vids st).1.get? (i + 1) =
        some (.saveState (genreStep cap src g vids st).2.1) ∧
      dictGet ((genreStep cap src g vids st).2.1).per_genre_last_index g = some j ∧
      ((genreStep cap src g vids st).2.1).last_video = some v :=
  innerGo_halt cap src g _ _ st i j v

theorem outerGo_c2 {α : Type} (cap gpr : Nat) (src : String → List (FetchResult α)) :
    ∀ (cands : List (String × List (String × Int))) (st : Checkpoint) (p : Nat)
      (i : Nat) (g : String) (j : Nat) (v : String),
      (cands.map Prod.fst).Nodup →
      g ∉ st.completed_genres →
      (outerGo cap gpr src cands st p).1.get? i = some (.processUnit g j v) →
      (scrape_video_comments (src v) cap).rateLimited = true →
      (outerGo cap gpr src cands st p).1.length = i + 2 ∧
        (∃ s, (outerGo cap gpr src cands st p).1.get? (i + 1) = some (.saveState s) ∧
          dictGet s.per_genre_last_index g = some j ∧ s.last_video = some v ∧
          g ∉ s.completed_genres) ∧
        ∀ ev ∈ (outerGo cap gpr src cands st p).1, ev ≠ .completeGenre g := by
  intro cands
  induction cands with
  | nil =>
    intro st p i g j v _ _ h _
    simp [outerGo] at h
  | cons c rest ih =>
    obtain ⟨g', vids⟩ := c
    intro st p i g j v hnd hgc h hrl
    simp only [List.map_cons, List.nodup_cons] at hnd
    obtain ⟨hg'notin, hnd'⟩ := hnd
    have hgenre : ∀ iL, (genreStep cap src g' vids st).1.get? iL = some (.processUnit g j v) →
        g = g' := by
      intro iL hL
      by_contra hne
      exact innerGo_no_other_pu cap src g' _ _ st g hne j v (List.get?_mem hL)
    have hsegno_cg : ∀ ev ∈ (genreStep cap src g' vids st).1, ev ≠ Event.completeGenre g := by
      intro ev hev heq
      subst heq
      rcases innerGo_events cap src g' _ _ st _ hev with ⟨i', v', heq', -⟩ | ⟨s, heq'⟩
      · cases heq'
      · cases heq'
    simp only [outerGo] at h ⊢
    split at h
    · rename_i hhalt
      rw [if_pos hhalt]
      dsimp only
      obtain rfl : g = g' := hgenre i h
      have hH := genreStep_halt cap src g vids st i j v h hrl
      refine ⟨hH.2.1, ⟨(genreStep cap src g vids st).2.1, hH.2.2.1, hH.2.2.2.1, hH.2.2.2.2, ?_⟩,
        hsegno_cg⟩
      rw [genreStep_completed]
      exact hgc
    · rename_i hnothalt
      split at h
      · exfalso
        rcases Nat.lt_or_ge i (genreStep cap src g' vids st).1.length with hlt | hge
        · rw [List.get?_append hlt] at h
          obtain rfl : g = g' := hgenre i h
          exact hnothalt (genreStep_halt cap src g vids st i j v h hrl).1
        · rw [List.get?_append_right hge] at h
          rcases hk : i - (genreStep cap src g' vids st).1.length with _ | _ | k <;>
            rw [hk] at h <;> simp at h
      · rename_i hbud
        rw [if_neg hnothalt, if_neg hbud]
        dsimp only
        rw [List.append_assoc]
        rw [List.append_assoc] at h
        rcases Nat.lt_or_ge i (genreStep cap src g' vids st).1.length with hlt | hge
        · exfalso
          rw [List.get?_append hlt] at h
          obtain rfl : g = g' := hgenre i h
          exact hnothalt (genreStep_halt cap src g vids st i j v h hrl).1
        · rw [List.get?_append_right hge] at h
          rcases hk : i - (genreStep cap src g' vids st).1.length with _ | _ | k
          · rw [hk] at h
            simp at h
          · rw [hk] at h
            simp at h
          · rw [hk] at h
            simp only [List.cons_append, List.nil_append, List.get?_cons_succ] at h
            have hgrest : g ∈ rest.map Prod.fst :=
              outerGo_pu_genre cap gpr src rest _ _ g _ v (List.get?_mem h)
            have hgne : g ≠ g' := by
              intro heq
              subst heq
              exact hg'notin hgrest
            have hgc' : g ∉ (markGroupComplete g'
                (genreStep cap src g' vids st).2.1).completed_genres := by
              rw [markGroupComplete_completed_mem]
              rintro (hmem | rfl)
              · rw [genreStep_completed] at hmem
                exact hgc hmem
              · exact hgne rfl
            have hIH := ih _ (p + 1) k g j v hnd' hgc' h hrl
            refine ⟨?_, ?_, ?_⟩
            · simp only [List.length_append, List.cons_append, List.nil_append,
                List.length_cons, hIH.1]
              omega
            · obtain ⟨s, hs1, hs2, hs3, hs4⟩ := hIH.2.1
              refine ⟨s, ?_, hs2, hs3, hs4⟩
              rw [List.get?_append_right (le_trans hge (Nat.le_succ i))]
              simp only [List.cons_append, List.nil_append]
              rw [show i + 1 - (genreStep cap src g' vids st).1.length = k + 3 by omega]
              simp only [List.get?_cons_succ]
              exact hs1
            · intro ev hev heq
              subst heq
              rw [List.mem_append] at hev
              rcases hev with hev | hev
              · exact (hsegno_cg _ hev) rfl
              · simp only [List.cons_append, List.nil_append, List.mem_cons] at hev
                rcases hev with hev | hev | hev
                · injection hev with hev
                  exact hgne hev
                · cases hev
                · exact (hIH.2.2 _ hev) rfl

theorem genreStep_pu_genre {α : Type} (cap : Nat) (src : String → List (FetchResult α))
    (g' : String) (vids : List (String × Int)) (st : Checkpoint) (iL : Nat)
    (g : String) (j : Nat) (v : String) :
    (genreStep cap src g' vids st).1.get? iL = some (.processUnit g j v) → g = g' := by
  intro hL
  by_contra hne
  exact innerGo_no_other_pu cap src g' _ _ st g hne j v (List.get?_mem hL)

theorem genreStep_continue {α : Type} (cap : Nat) (src : String → List (FetchResult α))
    (g : String) (vids : List (String × Int)) (st : Checkpoint) (i j : Nat) (v : String) :
    (genreStep cap src g vids st).1.get? i = some (.processUnit g j v) →
    (scrape_video_comments (src v) cap).rateLimited = false →
    i + 2 ≤ (genreStep cap src g vids st).1.length ∧
      ((genreStep cap src g vids st).1.length = i + 2 →
        (genreStep cap src g vids st).2.2 = false) :=
  innerGo_continue cap src g _ _ st i j v

theorem outerGo_continue {α : Type} (cap gpr : Nat) (src : String → List (FetchResult α)) :
    ∀ (cands : List (String × List (String × Int))) (st : Checkpoint) (p i : Nat)
      (g : String) (j : Nat) (v : String),
      (outerGo cap gpr src cands st p).1.get? i = some (.processUnit g j v) →
      (scrape_video_comments (src v) cap).rateLimited = false →
      i + 2 < (outerGo cap gpr src cands st p).1.length := by
  intro cands
  induction cands with
  | nil =>
    intro st p i g j v h _
    simp [outerGo] at h
  | cons c rest ih =>
    obtain ⟨g', vids⟩ := c
    intro st p i g j v h hrl
    simp only [outerGo] at h ⊢
    split at h
    · rename_i hhalt
      rw [if_pos hhalt]
      dsimp only
      obtain rfl : g = g' := genreStep_pu_genre cap src g' vids st i g j v h
      have hc := genreStep_continue cap src g vids st i j v h hrl
      have hne : (genreStep cap src g vids st).1.length ≠ i + 2 := by
        intro he
        rw [hc.2 he] at hhalt
        cases hhalt
      omega
    · rename_i hnothalt
      split at h
      · rename_i hbud
        rw [if_neg hnothalt, if_pos hbud]
        dsimp only
        rcases Nat.lt_or_ge i (genreStep cap src g' vids st).1.length with hlt | hge
        · rw [List.get?_append hlt] at h
          obtain rfl : g = g' := genreStep_pu_genre cap src g' vids st i g j v h
          have hc := genreStep_continue cap src g vids st i j v h hrl
          simp only [List.length_append, List.length_cons, List.length_nil]
          omega
        · exfalso
          rw [List.get?_append_right hge] at h
          rcases hk : i - (genreStep cap src g' vids st).1.length with _ | _ | k <;>
            rw [hk] at h <;> simp at h
      · rename_i hbud
        rw [if_neg hnothalt, if_neg hbud]
        dsimp only
        rw [List.append_assoc] at h ⊢
        rcases Nat.lt_or_ge i (genreStep cap src g' vids st).1.length with hlt | hge
        · rw [List.get?_append hlt] at h
          obtain rfl : g = g' := genreStep_pu_genre cap src g' vids st i g j v h
          have hc := genreStep_continue cap src g vids st i j v h hrl
          simp only [List.length_append, List.cons_append, List.nil_append, List.length_cons]
          omega
        · rw [List.get?_append_right hge] at h
          rcases hk : i - (genreStep cap src g' vids st).1.length with _ | _ | k
          · rw [hk] at h
            simp at h
          · rw [hk] at h
            simp at h
          · rw [hk] at h
            simp only [List.cons_append, List.nil_append, List.get?_cons_succ] at h
            have hrec := ih _ (p + 1) k g j v h hrl
            simp only [List.length_append, List.cons_append, List.nil_append, List.length_cons]
            omega

theorem run_scrape_trace {α : Type} (src : String → List (FetchResult α))
    (assignments : List (String × List (String × Int))) (already : List String)
    (st₀ : Checkpoint) (cap gpr : Nat) :
    (run_scrape src assignments already st₀ cap gpr).1 = [] ∨
      run_scrape src assignments already st₀ cap gpr =
        outerGo cap gpr src (candidatesOf assignments already st₀) st₀ 0 := by
  unfold run_scrape
  split
  · exact Or.inl rfl
  · split
    · exact Or.inl rfl
    · exact Or.inr rfl

theorem candidatesOf_nodup (assignments : List (String × List (String × Int)))
    (already : List String) (st₀ : Checkpoint)
    (hnd : (assignments.map Prod.fst).Nodup) :
    ((candidatesOf assignments already st₀).map Prod.fst).Nodup := by
  apply List.Nodup.sublist _ hnd
  exact List.Sublist.map _ (List.filter_sublist _)

theorem candidatesOf_not_completed (assignments : List (String × List (String × Int)))
    (already : List String) (st₀ : Checkpoint) (g : String) :
    g ∈ (candidatesOf assignments already st₀).map Prod.fst → g ∉ st₀.completed_genres := by
  intro hg hc
  rw [List.mem_map] at hg
  obtain ⟨p, hp, rfl⟩ := hg
  rw [candidatesOf, List.mem_filter] at hp
  have h2 := hp.2
  simp only [Bool.not_eq_true', Bool.or_eq_false_iff] at h2
  have h3 : st₀.completed_genres.elem p.1 = true := List.elem_iff.mpr hc
  rw [show st₀.completed_genres.contains p.1 = st₀.completed_genres.elem p.1 from rfl, h3] at h2
  cases h2.2

/-- C1: for every group `g` not in `completedGroups`, a resumed run starts
processing `g` at `perGroupLastIndex[g] + 1` (0 when no index is recorded):
the first unit attempt for `g` is at exactly `nextIndex st₀ g` and no unit
of `g` is attempted at any smaller index, so indices up to the recorded
last index are never reprocessed; moreover the checkpoint — with the
attempt recorded — is persisted immediately after every single unit
attempt, never batched. -/
theorem c1_resume_invariant {α : Type} (src : String → List (FetchResult α))
    (assignments : List (String × List (String × Int))) (already : List String)
    (st₀ : Checkpoint) (cap gpr : Nat) (g : String)
    (hnd : (assignments.map Prod.fst).Nodup)
    (hgc : g ∉ st₀.completed_genres) :
    (∀ i v, Event.processUnit g i v ∈ (run_scrape src assignments already st₀ cap gpr).1 →
      nextIndex st₀ g ≤ i) ∧
    (∀ i, firstAttemptIdx (run_scrape src assignments already st₀ cap gpr).1 g = some i →
      i = nextIndex st₀ g) ∧
    savedAfterEachAttempt (run_scrape src assignments already st₀ cap gpr).1 = true := by
  have hndc := candidatesOf_nodup assignments already st₀ hnd
  rcases run_scrape_trace src assignments already st₀ cap gpr with hemp | heq
  · rw [hemp]
    refine ⟨?_, ?_, rfl⟩
    · intro i v h
      simp at h
    · intro i h
      simp [firstAttemptIdx] at h
  · rw [heq]
    have hc1 := outerGo_c1 cap gpr src g (candidatesOf assignments already st₀) st₀ 0 hndc
    refine ⟨hc1.1, hc1.2, ?_⟩
    have hsv := outerGo_saved cap gpr src (candidatesOf assignments already st₀) st₀ 0 []
    simpa using hsv

/-- C2: when `scrape_video_comments` reports a rate-limit halt for the unit
attempted at trace position `i`, the orchestrator still marks the unit
attempted and persists the checkpoint — the next trace event is a
`save_state` whose checkpoint records the unit's index under its genre and
the unit as `last_video` — and then returns immediately: the trace ends
right after that save, so no further unit in any group is processed, and
the current group is never marked complete (no completion event for it and
the saved `completedGroups` excludes it). -/
theorem c2_rate_limit_halts {α : Type} (src : String → List (FetchResult α))
    (assignments : List (String × List (String × Int))) (already : List String)
    (st₀ : Checkpoint) (cap gpr : Nat)
    (hnd : (assignments.map Prod.fst).Nodup)
    (i : Nat) (g : String) (j : Nat) (v : String)
    (hpu : (run_scrape src assignments already st₀ cap gpr).1.get? i =
      some (.processUnit g j v))
    (hrl : (scrape_video_comments (src v) cap).rateLimited = true) :
    (run_scrape src assignments already st₀ cap gpr).1.length = i + 2 ∧
      (∃ s, (run_scrape src assignments already st₀ cap gpr).1.get? (i + 1) =
          some (.saveState s) ∧
        dictGet s.per_genre_last_index g = some j ∧ s.last_video = some v ∧
        g ∉ s.completed_genres) ∧
      ∀ ev ∈ (run_scrape src assignments already st₀ cap gpr).1,
        ev ≠ .completeGenre g := by
  have hndc := candidatesOf_nodup assignments already st₀ hnd
  rcases run_scrape_trace src assignments already st₀ cap gpr with hemp | heq
  · rw [hemp] at hpu
    simp at hpu
  · rw [heq] at hpu ⊢
    have hgc : g ∉ st₀.completed_genres := by
      apply candidatesOf_not_completed assignments already st₀ g
      exact outerGo_pu_genre cap gpr src _ st₀ 0 g j v (List.get?_mem hpu)
    exact outerGo_c2 cap gpr src _ st₀ 0 i g j v hndc hgc hpu hrl

/-- C6: when a page fetch for unit `v` fails — its source is an exhausted
prefix followed by an `HttpError` — the UnitScraper returns the rows
collected so far, with the rate-limited flag exactly the classification of
the failure (so `(rowsSoFar, true)` for a rate limit and
`(rowsSoFar, false)` otherwise), ending the pagination loop on the
failure branch; no failure escapes the scraper (it returns a value by
construction), and when the failure is not a rate limit the orchestrator
proceeds: the run's trace continues past the unit's save event. -/
theorem c6_unit_failure_handling {α : Type} (src : String → List (FetchResult α))
    (assignments : List (String × List (String × Int))) (already : List String)
    (st₀ : Checkpoint) (cap gpr : Nat) (i : Nat) (g : String) (j : Nat) (v : String)
    (pre : List (FetchResult α)) (e : HttpError) (rest : List (FetchResult α))
    (hsrc : src v = pre ++ .httpErr e :: rest)
    (hexh : (scrape_video_comments pre cap).exitKind = .exhausted)
    (hpu : (run_scrape src assignments already st₀ cap gpr).1.get? i =
      some (.processUnit g j v)) :
    (scrape_video_comments (src v) cap).rows = (scrape_video_comments pre cap).rows ∧
      (scrape_video_comments (src v) cap).rateLimited = _is_rate_limit_error e ∧
      (scrape_video_comments (src v) cap).exitKind = .httpFailure ∧
      (_is_rate_limit_error e = false →
        ∃ ev, (run_scrape src assignments already st₀ cap gpr).1.get? (i + 2) = some ev) := by
  have hlt : (scrape_video_comments pre cap).rows.length < cap :=
    scrapeGo_exhausted_rows_lt cap pre [] hexh
  have hsplit : scrape_video_comments (pre ++ .httpErr e :: rest) cap =
      ⟨(scrape_video_comments pre cap).rows, _is_rate_limit_error e, .httpFailure,
        (scrape_video_comments pre cap).fetches + 1⟩ := by
    unfold scrape_video_comments
    rw [scrapeGo_append_exhausted cap pre (.httpErr e :: rest) [] (by simp) hexh]
    have hhd : scrapeGo cap (FetchResult.httpErr e :: rest) (scrapeGo cap pre []).rows =
        ⟨(scrapeGo cap pre []).rows, _is_rate_limit_error e, .httpFailure, 1⟩ := by
      simp only [scrapeGo]
      rw [if_neg (by exact Nat.not_le_of_lt hlt)]
    rw [hhd]
  rw [hsrc]
  refine ⟨by rw [hsplit], by rw [hsplit], by rw [hsplit], ?_⟩
  intro hfalse
  have hrlf : (scrape_video_comments (src v) cap).rateLimited = false := by
    rw [hsrc, hsplit]
    exact hfalse
  rcases run_scrape_trace src assignments already st₀ cap gpr with hemp | heq
  · rw [hemp] at hpu
    simp at hpu
  · rw [heq] at hpu ⊢
    have hlen := outerGo_continue cap gpr src _ st₀ 0 i g j v hpu hrlf
    cases hopt : (outerGo cap gpr src (candidatesOf assignments already st₀) st₀ 0).1.get?
        (i + 2) with
    | none =>
      rw [List.get?_eq_none] at hopt
      omega
    | some ev => exact ⟨ev, rfl⟩

/-- C1 witness: in the concrete resumed run, every `rock` attempt is at
index ≥ 1, the first is at exactly 1, and the state is saved after each
attempt. -/
theorem c1_resume_invariant_witness :
    ((asgW1.map Prod.fst).Nodup ∧ "rock" ∉ stW1.completed_genres) ∧
      ((∀ i v, Event.processUnit "rock" i v ∈ (run_scrape srcOkW asgW1 [] stW1 100 500).1 →
          nextIndex stW1 "rock" ≤ i) ∧
        (∀ i, firstAttemptIdx (run_scrape srcOkW asgW1 [] stW1 100 500).1 "rock" = some i →
          i = nextIndex stW1 "rock") ∧
        savedAfterEachAttempt (run_scrape srcOkW asgW1 [] stW1 100 500).1 = true) :=
  ⟨⟨by decide, by decide⟩,
    c1_resume_invariant srcOkW asgW1 [] stW1 100 500 "rock" (by decide) (by decide)⟩

/-- C2 witness: the concrete rate-limited run attempts exactly one unit,
saves a checkpoint recording it, and stops without completing the genre. -/
theorem c2_rate_limit_halts_witness :
    ((asgW2.map Prod.fst).Nodup ∧
      (run_scrape srcHaltW asgW2 [] stEmpty 100 500).1.get? 0 =
        some (.processUnit "rock" 0 "v1") ∧
      (scrape_video_comments (srcHaltW "v1") 100).rateLimited = true) ∧
      ((run_scrape srcHaltW asgW2 [] stEmpty 100 500).1.length = 0 + 2 ∧
        (∃ s, (run_scrape srcHaltW asgW2 [] stEmpty 100 500).1.get? (0 + 1) =
            some (.saveState s) ∧
          dictGet s.per_genre_last_index "rock" = some 0 ∧ s.last_video = some "v1" ∧
          "rock" ∉ s.completed_genres) ∧
        ∀ ev ∈ (run_scrape srcHaltW asgW2 [] stEmpty 100 500).1,
          ev ≠ .completeGenre "rock") :=
  ⟨⟨by decide, by decide, by decide⟩,
    c2_rate_limit_halts srcHaltW asgW2 [] stEmpty 100 500 (by decide) 0 "rock" 0 "v1"
      (by decide) (by decide)⟩

/-- C6 witness: the concrete failing unit returns its one collected row
with no rate-limit flag, and the run proceeds to the next unit. -/
theorem c6_unit_failure_handling_witness :
    (srcFailW "v1" = [FetchResult.ok [7]] ++ .httpErr errBackend :: [] ∧
      (scrape_video_comments [FetchResult.ok [7]] 100).exitKind = .exhausted ∧
      (run_scrape srcFailW asgW3 [] stEmpty 100 500).1.get? 0 =
        some (.processUnit "rock" 0 "v1")) ∧
      ((scrape_video_comments (srcFailW "v1") 100).rows =
          (scrape_video_comments [FetchResult.ok [7]] 100).rows ∧
        (scrape_video_comments (srcFailW "v1") 100).rateLimited =
          _is_rate_limit_error errBackend ∧
        (scrape_video_comments (srcFailW "v1") 100).exitKind = .httpFailure ∧
        (_is_rate_limit_error errBackend = false →
          ∃ ev, (run_scrape srcFailW asgW3 [] stEmpty 100 500).1.get? (0 + 2) = some ev)) :=
  ⟨⟨by decide, by decide, by decide⟩,
    c6_unit_failure_handling srcFailW asgW3 [] stEmpty 100 500 0 "rock" 0 "v1"
      [FetchResult.ok [7]] errBackend [] (by decide) (by decide) (by decide)⟩
